import Mathlib

/-!
# Verification of the portfolio backend's aggregation core

Shallow embedding of the aggregation service of the `mehtaportfolio/backend`
repository, together with theorems settling the specification claims about it.

Embedded source functions (JavaScript → Lean):
* `toNumber` — the defensive numeric parser shared by
  `src/services/aggregationService.js` and the analysis service.
* `calculateXirr` — the bisection rate solver of the analysis service.
* `calculateBankHoldings`, `calculatePPFHoldings`, `calculateEPFHoldings`,
  `calculateNPSHoldings` — the asset aggregators of
  `src/services/aggregationService.js`.

Modelling conventions:
* JavaScript numbers are idealised as exact rationals (`ℚ`); `NaN` and the
  infinities are represented explicitly where the code can observe them.
* Dates are millisecond timestamps (`ℤ`); an invalid date (`NaN` time) and a
  missing date are distinguished explicitly.
* `Array.prototype.sort` with a numeric comparator is modelled as a stable
  insertion sort; a comparator returning `NaN` is treated as `+0` (no swap),
  exactly as prescribed by the ECMAScript `SortCompare` specification.
* JavaScript `Map`s / plain objects used for grouping are modelled as
  insertion-ordered association lists.
-/

namespace Portfolio

/-! ## JavaScript values and the defensive numeric parser `toNumber` -/

/-- A loosely-typed JavaScript value as it can reach the numeric helpers:
a finite number, `NaN`, an infinity, `null`, `undefined`, a string, a
boolean, or a plain object. -/
inductive JSVal where
  | num (q : ℚ)
  | nan
  | inf
  | null
  | undef
  | str (s : String)
  | bool (b : Bool)
  | obj
deriving DecidableEq, Repr

/-- JavaScript `String(value)` for the shapes that can reach the string branch
of `toNumber` (numbers, `null` and `undefined` are intercepted earlier, so
their cases are immaterial there; we still give the JS strings). -/
def jsToString : JSVal → String
  | .num _ => ""
  | .nan => "NaN"
  | .inf => "Infinity"
  | .null => "null"
  | .undef => "undefined"
  | .str s => s
  | .bool true => "true"
  | .bool false => "false"
  | .obj => "[object Object]"

/-- The regex replace `replace(/[^0-9.-]/g, '')`: keep only digits, `.`
and `-`. -/
def stripNonNumeric (s : String) : String :=
  ⟨s.toList.filter (fun c => c.isDigit || c = '.' || c = '-')⟩

/-- Digit list to natural number, most significant digit first. -/
def digitsToNat (ds : List Char) : ℕ :=
  ds.foldl (fun a c => 10 * a + (c.toNat - Char.toNat '0')) 0

/-- Model of JavaScript `parseFloat` on the strings produced by
`stripNonNumeric` (only digits, `.`, `-`): skip leading whitespace, an
optional sign, then the longest `digits [. digits]` prefix; `none` models a
`NaN` result (no digit consumed).  Exponent suffixes (`e`/`E`) cannot occur
after the strip, so they are not modelled. -/
def parseFloatQ (s : String) : Option ℚ :=
  let cs := s.toList.dropWhile (fun c => c.isWhitespace)
  let signed : Bool × List Char :=
    match cs with
    | '-' :: rest => (true, rest)
    | '+' :: rest => (false, rest)
    | _ => (false, cs)
  let ip := signed.2.takeWhile (fun c => c.isDigit)
  let rest := signed.2.dropWhile (fun c => c.isDigit)
  let fp : List Char :=
    match rest with
    | '.' :: r => r.takeWhile (fun c => c.isDigit)
    | _ => []
  if ip.isEmpty && fp.isEmpty then none
  else
    let mag : ℚ := (digitsToNat ip : ℚ) + (digitsToNat fp : ℚ) / (10 ^ fp.length : ℚ)
    some (if signed.1 then -mag else mag)

/-- The defensive numeric parser `toNumber` (identical in
`aggregationService.js` and the analysis service):
finite numbers pass through, non-finite numbers and nullish values become 0,
anything else is stringified, stripped to `[0-9.-]` and `parseFloat`ed,
with unparseable results coerced to 0. -/
def toNumber : JSVal → ℚ
  | .num q => q
  | .nan => 0
  | .inf => 0
  | .null => 0
  | .undef => 0
  | v =>
    match parseFloatQ (stripNonNumeric (jsToString v)) with
    | some q => q
    | none => 0

/-! ## Shared string and list helpers -/

/-- Substring test on character lists (JavaScript `String.prototype.includes`). -/
def isSubListOf (needle : List Char) : List Char → Bool
  | [] => needle.isEmpty
  | c :: rest => List.isPrefixOf needle (c :: rest) || isSubListOf needle rest

/-- JavaScript `hay.includes(needle)`. -/
def jsIncludes (hay needle : String) : Bool :=
  isSubListOf needle.toList hay.toList

/-- JavaScript `toLowerCase` (ASCII, which is all the code compares). -/
def jsLower (s : String) : String := ⟨s.toList.map Char.toLower⟩

/-- `String(x || '')` for an optional string field. -/
def jsStr (o : Option String) : String := o.getD ""

/-- Stable insertion of `x` after every leading `y` with `le y x`. -/
def insertLe {α : Type} (le : α → α → Bool) (x : α) : List α → List α
  | [] => [x]
  | y :: ys => if le y x then y :: insertLe le x ys else x :: y :: ys

/-- Stable sort (models `Array.prototype.sort`, which ECMAScript requires to
be stable); elements are inserted left to right, each placed after all
earlier elements the comparator does not order strictly after it. -/
def stableSort {α : Type} (le : α → α → Bool) (l : List α) : List α :=
  l.foldl (fun acc x => insertLe le x acc) []

/-- Insertion-ordered association list: append `v` to the entry of `k`,
creating the entry at the end on first touch (JavaScript `Map` grouping). -/
def pushEntry {α : Type} (k : String) (v : α) : List (String × List α) → List (String × List α)
  | [] => [(k, [v])]
  | (k₀, vs) :: rest =>
      if k₀ = k then (k₀, vs ++ [v]) :: rest else (k₀, vs) :: pushEntry k v rest

/-- Insertion-ordered grouping of a list by a key function. -/
def groupByKey {α : Type} (keyOf : α → String) (l : List α) : List (String × List α) :=
  l.foldl (fun acc x => pushEntry (keyOf x) x acc) []

/-! ## Rate solver `calculateXirr` (analysis service) -/

/-- A raw cashflow as received by `calculateXirr` after the JS conversions
`Number(cf.amount)` (`none` = non-finite) and `new Date(cf.date)`
(`none` = invalid date, the time value `NaN`). -/
structure RawFlow where
  amount : Option ℚ
  date : Option ℤ
deriving DecidableEq, Repr

/-- A cashflow that survived the validity filter. -/
structure Cashflow where
  amount : ℚ
  date : ℤ
deriving DecidableEq, Repr

/-- `1000 * 60 * 60 * 24 * 365` milliseconds. -/
def msPerYear : ℤ := 31536000000

/-- The map/filter prelude of `calculateXirr`: keep flows whose amount is
finite and nonzero and whose date is valid. -/
def xirrValidFlows (flows : List RawFlow) : List Cashflow :=
  flows.filterMap fun cf =>
    match cf.amount, cf.date with
    | some a, some d => if a ≠ 0 then some ⟨a, d⟩ else none
    | _, _ => none

/-- The validity filter followed by the date-ascending sort. -/
def xirrSorted (flows : List RawFlow) : List Cashflow :=
  stableSort (fun a b => a.date ≤ b.date) (xirrValidFlows flows)

/-- `Math.pow (1 + rate) e` for the exponent `(date − base) / msPerYear`.
JavaScript computes a real power; a fractional exponent has no exact
rational counterpart, so the embedding is exact on whole-year exponents
(the only ones any theorem below evaluates) and returns 0 otherwise. -/
def powYears (x : ℚ) (e : ℚ) : ℚ :=
  if e.den = 1 then x ^ e.num else 0

/-- The net present value `Σ amountᵢ / (1+rate)^((dateᵢ − base)/msPerYear)`. -/
def xirrNpv (cfs : List Cashflow) (base : ℤ) (rate : ℚ) : ℚ :=
  cfs.foldl
    (fun acc cf =>
      acc + cf.amount / powYears (1 + rate) (((cf.date : ℚ) - (base : ℚ)) / (msPerYear : ℚ)))
    0

/-- The bisection loop of `calculateXirr`: 100 iterations over
`(low, high)`, early exit when `|NPV(mid)| < 1e-6`, result `mid * 100`. -/
def xirrLoop (cfs : List Cashflow) (base : ℤ) : ℕ → ℚ → ℚ → ℚ → ℚ
  | 0, _low, _high, mid => mid * 100
  | n + 1, low, high, _mid =>
      let mid := (low + high) / 2
      let value := xirrNpv cfs base mid
      if |value| < 1 / 1000000 then mid * 100
      else if value > 0 then xirrLoop cfs base n mid high mid
      else xirrLoop cfs base n low mid mid

/-- `calculateXirr` (analysis service): returns 0 for fewer than two raw
flows or when no valid flow survives the filter, otherwise runs 100
bisection steps on `rate ∈ (−0.9999, 100)` and reports a percentage. -/
def calculateXirr (flows : List RawFlow) : ℚ :=
  if flows.length < 2 then 0
  else
    match xirrSorted flows with
    | [] => 0
    | first :: _ => xirrLoop (xirrSorted flows) first.date 100 (-9999 / 10000) 100 0

/-! ## Association-list primitives for JavaScript `Map` state -/

/-- First value under key `k` (JavaScript `map.get(k)`). -/
def assocFind {α : Type} (k : String) : List (String × α) → Option α
  | [] => none
  | (k₀, v) :: rest => if k₀ = k then some v else assocFind k rest

/-- Set key `k` to `v`, appending the entry at the end on first touch
(JavaScript `map.set(k, v)` keeps insertion order). -/
def assocSet {α : Type} (k : String) (v : α) : List (String × α) → List (String × α)
  | [] => [(k, v)]
  | (k₀, v₀) :: rest => if k₀ = k then (k₀, v) :: rest else (k₀, v₀) :: assocSet k v rest

/-! ## Bank holdings (`calculateBankHoldings`) -/

/-- The raw `txn_date` field of a bank transaction as the code observes it:
`missing` = falsy (fails the `txn?.txn_date` test), `invalid` = truthy but
unparseable (`new Date` has time `NaN`), `valid time ym` = parseable with
millisecond time `time` and month numeric
`getFullYear() * 100 + (getMonth() + 1)` equal to `ym` (the month numeric
is a function of the time in JavaScript; the pair abstracts the calendar). -/
inductive BankDate where
  | missing
  | invalid
  | valid (time : ℤ) (ym : ℤ)
deriving DecidableEq, Repr

/-- A row of the bank transactions table, with the fields
`calculateBankHoldings` reads. -/
structure BankTx where
  account_name : Option String
  bank_name : Option String
  account_type : Option String
  txn_date : BankDate
  amount : JSVal
deriving DecidableEq, Repr

/-- The result shape `{ savings, demat, total }`. -/
structure BankHoldings where
  savings : ℚ
  demat : ℚ
  total : ℚ
deriving DecidableEq, Repr

/-- Lower-cased `account_type` (`String(txn?.account_type || '').toLowerCase()`). -/
def bankType (t : BankTx) : String := jsLower (jsStr t.account_type)

/-- The savings/demat class filter. -/
def bankFiltered (transactions : List BankTx) : List BankTx :=
  transactions.filter fun t => bankType t == "savings" || bankType t == "demat"

/-- One step of the latest-month scan (`monthNumeric > latestMonthNumeric`),
skipping missing and invalid dates. -/
def bankMonthStep (acc : Option ℤ) (t : BankTx) : Option ℤ :=
  match t.txn_date with
  | .valid _ ym =>
    match acc with
    | none => some ym
    | some a => if ym > a then some ym else acc
  | _ => acc

/-- The latest-month scan, starting from `-Infinity` (`none`). -/
def bankLatestMonth (filtered : List BankTx) : Option ℤ :=
  filtered.foldl bankMonthStep none

/-- The grouping key `` `${account_name || ''}||${bank_name || ''}||${account_type || ''}` ``. -/
def bankKey (t : BankTx) : String :=
  jsStr t.account_name ++ "||" ++ jsStr t.bank_name ++ "||" ++ jsStr t.account_type

/-- The date-descending comparator `new Date(b.txn_date || 0) − new Date(a.txn_date || 0)`
as a stay-before relation: `le a b` iff the comparator applied to `(a, b)` is
`≤ 0`; an invalid date yields `NaN`, which `SortCompare` turns into `+0`. -/
def bankCmpLe (a b : BankTx) : Bool :=
  match a.txn_date, b.txn_date with
  | .valid ta _, .valid tb _ => tb ≤ ta
  | _, _ => true

/-- Truthiness test `txn?.txn_date` used before the per-group sort. -/
def bankHasDate (t : BankTx) : Bool :=
  match t.txn_date with
  | .missing => false
  | _ => true

/-- Does the transaction's (valid) month equal `M`? -/
def bankInMonth (M : ℤ) (t : BankTx) : Bool :=
  match t.txn_date with
  | .valid _ ym => ym == M
  | _ => false

/-- Per-group `match`: sort the dated transactions by date descending and
take the first whose month numeric is the latest month. -/
def bankGroupMatch (M : ℤ) (l : List BankTx) : Option BankTx :=
  (stableSort bankCmpLe (l.filter bankHasDate)).find? (bankInMonth M)

/-- One group folded into the running `(savings, demat)` pair: the group's
latest-month match is added to the bucket named by its account type. -/
def bankStep (M : ℤ) (acc : ℚ × ℚ) (g : String × List BankTx) : ℚ × ℚ :=
  match bankGroupMatch M g.2 with
  | none => acc
  | some m =>
    let amt := toNumber m.amount
    if bankType m == "savings" then (acc.1 + amt, acc.2)
    else if bankType m == "demat" then (acc.1, acc.2 + amt)
    else acc

/-- `calculateBankHoldings` (aggregation service): keep savings/demat rows,
find the latest calendar month, group by account/bank/type, and add each
group's most recent transaction of that month into the savings or demat sum. -/
def calculateBankHoldings (transactions : List BankTx) : BankHoldings :=
  if transactions.isEmpty then ⟨0, 0, 0⟩
  else
    let filtered := bankFiltered transactions
    if filtered.isEmpty then ⟨0, 0, 0⟩
    else
      match bankLatestMonth filtered with
      | none => ⟨0, 0, 0⟩
      | some M =>
        if M < 0 then ⟨0, 0, 0⟩
        else
          let sums := (groupByKey bankKey filtered).foldl (bankStep M) (0, 0)
          ⟨sums.1, sums.2, sums.1 + sums.2⟩

/-! ## PPF holdings (`calculatePPFHoldings`) -/

/-- A raw date-like field: `missing` = falsy/absent (`new Date(undefined)`
is invalid), `invalid` = truthy but unparseable, `valid t` = time `t` ms. -/
inductive JSDate where
  | missing
  | invalid
  | valid (t : ℤ)
deriving DecidableEq, Repr

/-- A row of the PPF transactions table. -/
structure PPFTx where
  account_name : Option String
  txn_date : JSDate
  amount : JSVal
  transaction_type : Option String
deriving DecidableEq, Repr

/-- The result shape `{ invested, interest, total }` shared by the PPF and
EPF aggregators. -/
structure FundHoldings where
  invested : ℚ
  interest : ℚ
  total : ℚ
deriving DecidableEq, Repr

/-- Grouping key `txn.account_name || 'unknown'`. -/
def ppfKey (t : PPFTx) : String :=
  match t.account_name with
  | some s => if s = "" then "unknown" else s
  | none => "unknown"

/-- Date-ascending comparator `new Date(a.txn_date) − new Date(b.txn_date)`
as a stay-before relation (`NaN` comparator = `+0`). -/
def ppfCmpLe (a b : PPFTx) : Bool :=
  match a.txn_date, b.txn_date with
  | .valid ta, .valid tb => ta ≤ tb
  | _, _ => true

/-- One transaction applied to the `(invested, interest)` accumulator:
deposits raise principal, interest credits raise interest, withdrawals
consume interest first and then principal, via `min`. -/
def ppfStep (st : ℚ × ℚ) (t : PPFTx) : ℚ × ℚ :=
  let amount := toNumber t.amount
  let ty := jsLower (jsStr t.transaction_type)
  if ty = "deposit" then (st.1 + amount, st.2)
  else if ty = "interest" then (st.1, st.2 + amount)
  else if ty = "withdrawal" then
    let reduceInterest := min amount st.2
    let interest := st.2 - reduceInterest
    let remaining := amount - reduceInterest
    let reduceDeposit := min remaining st.1
    (st.1 - reduceDeposit, interest)
  else st

/-- `calculatePPFHoldings`: group by account, sort each account's rows by
date ascending, fold `ppfStep` from `(0, 0)`, and sum the accounts. -/
def calculatePPFHoldings (transactions : List PPFTx) : FundHoldings :=
  let grouped := groupByKey ppfKey transactions
  let totals :=
    grouped.foldl
      (fun (acc : ℚ × ℚ) g =>
        let r := (stableSort ppfCmpLe g.2).foldl ppfStep (0, 0)
        (acc.1 + r.1, acc.2 + r.2))
      (0, 0)
  ⟨totals.1, totals.2, totals.1 + totals.2⟩

/-! ## EPF holdings (`calculateEPFHoldings`) -/

/-- A row of the EPF transactions table. -/
structure EPFTx where
  employee_share : JSVal
  employer_share : JSVal
  pension_share : JSVal
  invest_type : Option String
deriving DecidableEq, Repr

/-- One EPF row applied to the running `(invested, interest)` pair. -/
def epfStep (st : ℚ × ℚ) (t : EPFTx) : ℚ × ℚ :=
  let amount := toNumber t.employee_share + toNumber t.employer_share + toNumber t.pension_share
  if amount ≤ 0 then st
  else
    let ty := jsLower (jsStr t.invest_type)
    if jsIncludes ty "withdraw" then
      let reduceInterest := min amount st.2
      let interest := st.2 - reduceInterest
      let remaining := amount - reduceInterest
      let reduceDeposit := min remaining st.1
      (st.1 - reduceDeposit, interest)
    else if jsIncludes ty "interest" then (st.1, st.2 + amount)
    else (st.1 + amount, st.2)

/-- `calculateEPFHoldings`: single fold over all rows; the reported
principal is floored at 0 on output. -/
def calculateEPFHoldings (transactions : List EPFTx) : FundHoldings :=
  let r := transactions.foldl epfStep (0, 0)
  ⟨max r.1 0, r.2, max r.1 0 + r.2⟩

/-! ## NPS holdings (`calculateNPSHoldings`) -/

/-- The sort key `effectiveDate ? effectiveDate.getTime() : +Infinity`:
a finite time, `NaN` (invalid date object), or `+Infinity` (no date field). -/
inductive ETime where
  | fin (t : ℤ)
  | nan
  | inf
deriving DecidableEq, Repr

/-- A row of the NPS transactions table. -/
structure NPSTx where
  scheme_name : Option String
  account_name : Option String
  transaction_type : Option String
  units : JSVal
  nav : JSVal
  date : JSDate
  txn_date : JSDate
  created_at : JSDate
deriving DecidableEq, Repr

/-- A prepared transaction (the output of the `.map` stage). -/
structure PrepTx where
  schemeName : String
  accountName : String
  type : String
  units : ℚ
  nav : ℚ
  eff : ETime
  index : ℕ
deriving DecidableEq, Repr

/-- An open acquisition lot.  The JS lot also stores the raw date and an
`order` copy of the sort key; both collapse to `date : ETime` here, and
neither is read again. -/
structure Lot where
  units : ℚ
  cost : ℚ
  date : ETime
  sequence : ℕ
deriving DecidableEq, Repr

/-- One reported holding row. -/
structure NPSHolding where
  schemeName : String
  accountName : String
  units : ℚ
  invested : ℚ
  marketValue : ℚ
  cmp : ℚ
deriving DecidableEq, Repr

/-- The result shape `{ marketValue, invested, holdings }`. -/
structure NPSHoldings where
  marketValue : ℚ
  invested : ℚ
  holdings : List NPSHolding
deriving DecidableEq, Repr

/-- JavaScript `String.prototype.trim` on both ends. -/
def jsTrim (s : String) : String :=
  ⟨(((s.toList.dropWhile (fun c => c.isWhitespace)).reverse.dropWhile
      (fun c => c.isWhitespace)).reverse)⟩

/-- `txn.date || txn.txn_date || txn.created_at`: first truthy date field. -/
def npsPick (t : NPSTx) : JSDate :=
  match t.date with
  | .missing =>
    match t.txn_date with
    | .missing => t.created_at
    | d => d
  | d => d

/-- The effective sort key of a transaction. -/
def npsEffTime (t : NPSTx) : ETime :=
  match npsPick t with
  | .missing => .inf
  | .invalid => .nan
  | .valid time => .fin time

/-- The `.map` stage of `calculateNPSHoldings` (null for blank schemes). -/
def npsMapped (transactions : List NPSTx) : List PrepTx :=
  transactions.enum.filterMap fun p =>
    let txn := p.2
    let schemeName := jsTrim (jsStr txn.scheme_name)
    if schemeName = "" then none
    else
      some
        { schemeName := schemeName
          accountName := jsTrim (jsStr txn.account_name)
          type := jsLower (jsStr txn.transaction_type)
          units := toNumber txn.units
          nav := toNumber txn.nav
          eff := npsEffTime txn
          index := p.1 }

/-- The dust threshold `1e-8`. -/
def npsEps : ℚ := 1 / 100000000

/-- The `.filter` stage: finite units of magnitude above the threshold
(units from `toNumber` are always finite in the model). -/
def npsFiltered (transactions : List NPSTx) : List PrepTx :=
  (npsMapped transactions).filter fun t => |t.units| > npsEps

/-- The date-then-ingestion-order comparator as a stay-before relation.
`aTime !== bTime` is true when either side is `NaN`, and then
`aTime - bTime` is `NaN`, which `SortCompare` maps to `+0`. -/
def npsCmpLe (a b : PrepTx) : Bool :=
  match a.eff, b.eff with
  | .nan, _ => true
  | _, .nan => true
  | .fin ta, .fin tb => if ta = tb then a.index ≤ b.index else ta ≤ tb
  | .fin _, .inf => true
  | .inf, .fin _ => false
  | .inf, .inf => a.index ≤ b.index

/-- The fully prepared, sorted transaction sequence. -/
def npsSorted (transactions : List NPSTx) : List PrepTx :=
  stableSort npsCmpLe (npsFiltered transactions)

/-- The grouping key `` `${schemeName}||${accountName}` ``. -/
def npsKey (t : PrepTx) : String := t.schemeName ++ "||" ++ t.accountName

/-- The sale keywords of the FIFO branch. -/
def fifoKeywords : List String := ["sell", "redeem", "withdraw", "switch out", "exit"]

/-- `units < 0 || FIFO_KEYWORDS.some(kw => type.includes(kw))`. -/
def isSaleType (t : PrepTx) : Bool :=
  decide (t.units < 0) || fifoKeywords.any (fun kw => jsIncludes t.type kw)

/-- `type.includes('buy') && units > 0` — the lot-creating branch. -/
def isBuyPush (t : PrepTx) : Bool :=
  jsIncludes t.type "buy" && decide (t.units > 0)

/-- The lot pushed by a buy. -/
def mkLot (t : PrepTx) : Lot :=
  { units := t.units, cost := t.units * t.nav, date := t.eff, sequence := t.index }

/-- The FIFO `while` loop of a sale: with `r` still to sell, deduct
`min r lot.units` from the front lot, dropping it once its units fall to
the dust threshold.  When the front lot survives the deduction the
remaining quantity is `0`, so returning immediately matches the loop. -/
def consumeLots : ℚ → List Lot → List Lot
  | _, [] => []
  | r, lot :: rest =>
    if r ≤ npsEps then lot :: rest
    else
      let deduction := min r lot.units
      let u := lot.units - deduction
      if u ≤ npsEps then consumeLots (r - deduction) rest
      else { lot with units := u } :: rest

/-- One prepared transaction applied to the `lotsByScheme` map. -/
def npsStep (st : List (String × List Lot)) (t : PrepTx) : List (String × List Lot) :=
  let key := npsKey t
  let lots := (assocFind key st).getD []
  let lots2 :=
    if isBuyPush t then lots ++ [mkLot t]
    else if isSaleType t then consumeLots |t.units| lots
    else lots
  assocSet key lots2 st

/-- The whole transaction-processing fold. -/
def npsProcess (l : List PrepTx) : List (String × List Lot) :=
  l.foldl npsStep []

/-- JavaScript `key.split('||')` on character lists. -/
def splitBars : List Char → List (List Char)
  | [] => [[]]
  | '|' :: '|' :: rest => [] :: splitBars rest
  | c :: rest =>
    match splitBars rest with
    | [] => [[c]]
    | p :: ps => (c :: p) :: ps

/-- The reporting fold over the lot map: per key, keep lots above the dust
threshold, total their units and (floored) costs, price by `cmpMap`. -/
def npsOutput (st : List (String × List Lot)) (cmpMap : String → Option ℚ) : NPSHoldings :=
  st.foldl
    (fun acc entry =>
      let parts := splitBars entry.1.toList
      let schemeName : String := ⟨parts.headD []⟩
      let accountName : String := ⟨(parts.drop 1).headD []⟩
      let openLots := entry.2.filter fun lot => lot.units > npsEps
      if openLots.isEmpty then acc
      else
        let totalUnits := openLots.foldl (fun s lot => s + lot.units) 0
        let totalCost := openLots.foldl (fun s lot => s + max lot.cost 0) 0
        let cmp := (cmpMap schemeName).getD 0
        let marketValue := totalUnits * cmp
        { marketValue := acc.marketValue + marketValue
          invested := acc.invested + totalCost
          holdings :=
            acc.holdings ++ [⟨schemeName, accountName, totalUnits, totalCost, marketValue, cmp⟩] })
    ⟨0, 0, []⟩

/-- `calculateNPSHoldings`: prepare, sort, process FIFO, report. -/
def calculateNPSHoldings (transactions : List NPSTx) (cmpMap : String → Option ℚ) : NPSHoldings :=
  npsOutput (npsProcess (npsSorted transactions)) cmpMap

/-! ## Claim-side derived quantities -/

/-- Sum of the open-lot units recorded for key `k`. -/
def openUnitsForKey (k : String) (st : List (String × List Lot)) : ℚ :=
  (((assocFind k st).getD []).map Lot.units).sum

/-- Total units bought (lot-creating transactions) for key `k`. -/
def boughtForKey (k : String) (l : List PrepTx) : ℚ :=
  ((l.filter fun t => npsKey t == k && isBuyPush t).map PrepTx.units).sum

/-- Total units sold (sale-branch transactions) for key `k`. -/
def soldForKey (k : String) (l : List PrepTx) : ℚ :=
  ((l.filter fun t => npsKey t == k && (!isBuyPush t && isSaleType t)).map fun t => |t.units|).sum

/-- Executable check that along the processing fold no sale asks for more
units than its key currently holds open. -/
def npsNoOverdraw : List (String × List Lot) → List PrepTx → Bool
  | _, [] => true
  | st, t :: rest =>
    (if ¬isBuyPush t ∧ isSaleType t then
        decide (|t.units| ≤ openUnitsForKey (npsKey t) st)
      else true)
      && npsNoOverdraw (npsStep st t) rest

/-- One transaction's contribution to the claim's reading of the
latest-month policy: its amount if it falls in month `M` with account
type `ty`, otherwise nothing. -/
def bankTermF (M : ℤ) (ty : String) (t : BankTx) : ℚ :=
  if bankInMonth M t && (bankType t == ty) then toNumber t.amount else 0

/-- The claim's reading of the latest-month policy: the sum, over all
filtered transactions whose month is the latest month, of the amounts of
those with the given (lower-cased) account type. -/
def bankMonthSum (ty : String) (transactions : List BankTx) : ℚ :=
  match bankLatestMonth (bankFiltered transactions) with
  | none => 0
  | some M => ((bankFiltered transactions).map (bankTermF M ty)).sum

/-- The bucket contribution of one group: the amount of its latest-month
match when that match carries account type `ty`. -/
def bankPick (M : ℤ) (ty : String) (g : String × List BankTx) : ℚ :=
  match bankGroupMatch M g.2 with
  | none => 0
  | some m => if bankType m == ty then toNumber m.amount else 0

/-- Executable hypothesis: every transaction in the list carries a valid
date with a nonnegative month numeric. -/
def bankAllValid (l : List BankTx) : Bool :=
  l.all fun t =>
    match t.txn_date with
    | .valid _ ym => decide (0 ≤ ym)
    | _ => false

/-- Executable hypothesis: each group holds at most one transaction dated
in the latest month. -/
def bankAtMostOnePerGroup (l : List BankTx) : Bool :=
  match bankLatestMonth l with
  | none => true
  | some M =>
    (groupByKey bankKey l).all fun g => decide ((g.2.filter (bankInMonth M)).length ≤ 1)

/-- Strictly-increasing-valid-date relation between prepared transactions. -/
def effLt (a c : PrepTx) : Bool :=
  match a.eff, c.eff with
  | .fin ta, .fin tc => decide (ta < tc)
  | _, _ => false

/-! ## Concrete inputs used by counterexamples and witnesses -/

/-- The spec's XIRR sanity cashflows: day 0 → −100000, day 365 → +110000
(day 365 is `365 · 86400000 = 31536000000` ms, exactly one solver year). -/
def xirrSpecFlows : List RawFlow :=
  [⟨some (-100000), some 0⟩, ⟨some 110000, some 31536000000⟩]

/-- Two raw flows of which only one survives the validity filter. -/
def xirrCexFlows : List RawFlow := [⟨some 0, some 0⟩, ⟨some 100, some 0⟩]

/-- A savings-account bank transaction for concrete scenarios. -/
def bankTxOf (time ym : ℤ) (amt : ℚ) : BankTx :=
  { account_name := some "acc", bank_name := some "bank", account_type := some "savings",
    txn_date := .valid time ym, amount := .num amt }

/-- Two same-group savings transactions in the same (latest) month. -/
def bankCexTxns : List BankTx := [bankTxOf 1 202401 100, bankTxOf 2 202401 50]

/-- An NPS transaction for concrete scenarios (one scheme, one account). -/
def npsTxOf (ty : String) (u nav : ℚ) (time : ℤ) : NPSTx :=
  { scheme_name := some "S", account_name := some "A", transaction_type := some ty,
    units := .num u, nav := .num nav, date := .valid time, txn_date := .missing,
    created_at := .missing }

/-- Buy 5, oversell 10, then buy 7 — the conservation counterexample. -/
def npsCexTxns : List NPSTx := [npsTxOf "buy" 5 10 1, npsTxOf "sell" 10 10 2, npsTxOf "buy" 7 10 3]

/-- Buy 10 then sell 4 — a covered, whole-unit sequence. -/
def npsCoveredTxns : List NPSTx := [npsTxOf "buy" 10 2 1, npsTxOf "sell" 4 0 2]

/-- The spec's accumulator scenario: deposits totaling 1000, interest
credits totaling 200, then a withdrawal of 300, in date order. -/
def ppfSpecExample : List PPFTx :=
  [ { account_name := some "acct", txn_date := .valid 1, amount := .num 600,
      transaction_type := some "Deposit" },
    { account_name := some "acct", txn_date := .valid 2, amount := .num 400,
      transaction_type := some "Deposit" },
    { account_name := some "acct", txn_date := .valid 3, amount := .num 200,
      transaction_type := some "Interest" },
    { account_name := some "acct", txn_date := .valid 4, amount := .num 300,
      transaction_type := some "Withdrawal" } ]

/-- A concrete withdrawal row. -/
def ppfWithdrawTx : PPFTx :=
  { account_name := some "a", txn_date := .valid 5, amount := .num 300,
    transaction_type := some "Withdrawal" }

/-- A concrete prepared buy transaction with a negative unit count. -/
def prepNegBuy : PrepTx :=
  { schemeName := "S", accountName := "A", type := "buy", units := -4, nav := 2,
    eff := .fin 10, index := 1 }

/-- A one-key lot state with a single 10-unit lot. -/
def lotSt0 : List (String × List Lot) :=
  [("S||A", [{ units := 10, cost := 10, date := .fin 1, sequence := 0 }])]

/-! # Theorems -/

/-! ## C6 — XIRR sanity value -/

set_option maxRecDepth 400000 in
/-- C6: for the two cashflows (day 0, −100000) and (day 365, +110000),
`calculateXirr` returns a percentage within 0.1 of 10. -/
theorem c6_xirr_ten_percent : |calculateXirr xirrSpecFlows - 10| < 1 / 10 := by
  with_unfolding_all decide

/-! ## C1 — behaviour on fewer than two valid cashflows -/

set_option maxRecDepth 400000 in
/-- C1 counterexample: after discarding the zero-amount flow exactly one
valid flow remains — fewer than two — yet `calculateXirr` does not return
0 (it runs the full bisection on a constant positive NPV and lands near
10000). -/
theorem c1_counterexample :
    (xirrValidFlows xirrCexFlows).length < 2 ∧ calculateXirr xirrCexFlows ≠ 0 := by
  with_unfolding_all decide

/-- C1 (amended): `calculateXirr` returns 0 when the raw flow list has
fewer than two entries, or when no flow at all survives the
nonzero-amount/valid-date filter; a single surviving flow does not
short-circuit. -/
theorem c1_amended (flows : List RawFlow)
    (h : flows.length < 2 ∨ xirrValidFlows flows = []) : calculateXirr flows = 0 := by
  rcases h with h | h
  · simp [calculateXirr, h]
  · by_cases h2 : flows.length < 2
    · simp [calculateXirr, h2]
    · simp [calculateXirr, h2, xirrSorted, h, stableSort]

/-- Witness for `c1_amended` at the empty list. -/
theorem c1_amended_witness : calculateXirr [] = 0 :=
  c1_amended [] (Or.inl (by decide))

/-! ## C8 — the defensive numeric parser never fails -/

/-- C8: `toNumber` is a total function into the (finite) rationals, and
returns 0 on `null`, `undefined`, non-finite numbers, and strings whose
stripped form does not parse. -/
theorem c8_toNumber_defensive (v : JSVal) :
    (∃ q : ℚ, toNumber v = q) ∧
    (v = .null → toNumber v = 0) ∧
    (v = .undef → toNumber v = 0) ∧
    (v = .nan → toNumber v = 0) ∧
    (v = .inf → toNumber v = 0) ∧
    (∀ s, v = .str s → parseFloatQ (stripNonNumeric s) = none → toNumber v = 0) := by
  refine ⟨⟨toNumber v, rfl⟩, ?_, ?_, ?_, ?_, ?_⟩
  · rintro rfl; rfl
  · rintro rfl; rfl
  · rintro rfl; rfl
  · rintro rfl; rfl
  · rintro s rfl hp
    simp [toNumber, jsToString, hp]

/-- Witness for `c8_toNumber_defensive` on a nullish and an unparseable
string input. -/
theorem c8_toNumber_defensive_witness :
    toNumber JSVal.null = 0 ∧ toNumber (JSVal.str "abc") = 0 :=
  ⟨(c8_toNumber_defensive .null).2.1 rfl,
   (c8_toNumber_defensive (.str "abc")).2.2.2.2.2 "abc" rfl (by with_unfolding_all decide)⟩

/-! ## C9 — totals are the sum of the components -/

/-- C9: `calculateBankHoldings` always reports `total = savings + demat`,
and `calculatePPFHoldings` always reports `total = invested + interest`. -/
theorem c9_totals_are_component_sums :
    (∀ txns : List BankTx,
        (calculateBankHoldings txns).total
          = (calculateBankHoldings txns).savings + (calculateBankHoldings txns).demat) ∧
    (∀ txns : List PPFTx,
        (calculatePPFHoldings txns).total
          = (calculatePPFHoldings txns).invested + (calculatePPFHoldings txns).interest) := by
  constructor
  · intro txns
    unfold calculateBankHoldings
    dsimp only
    repeat' split
    all_goals first
      | rfl
      | norm_num
  · intro txns
    rfl

/-! ## C10 — a negative-unit "buy" consumes instead of creating a lot -/

/-- The FIFO consumption never lengthens the queue. -/
theorem consumeLots_length_le (r : ℚ) (q : List Lot) :
    (consumeLots r q).length ≤ q.length := by
  induction q generalizing r with
  | nil => simp [consumeLots]
  | cons lot rest ih =>
    rw [consumeLots]
    split
    · exact Nat.le_refl _
    · dsimp only
      split
      · exact Nat.le_trans (ih _) (Nat.le_succ _)
      · exact Nat.le_refl _

/-- Reading back the key just written. -/
theorem assocFind_assocSet_self {α : Type} (k : String) (v : α) (st : List (String × α)) :
    assocFind k (assocSet k v st) = some v := by
  induction st with
  | nil => simp [assocSet, assocFind]
  | cons e rest ih =>
    rw [assocSet]
    split
    · rw [assocFind]; simp_all
    · rw [assocFind]; simp_all

/-- C10: a transaction whose type contains `'buy'` but whose units are
negative takes the sale branch: it consumes open lots FIFO by its absolute
units, pushes no lot, and cannot lengthen the queue. -/
theorem c10_negative_buy_consumes (st : List (String × List Lot)) (t : PrepTx)
    (hbuy : jsIncludes t.type "buy" = true) (hneg : t.units < 0) :
    npsStep st t
        = assocSet (npsKey t) (consumeLots |t.units| ((assocFind (npsKey t) st).getD [])) st ∧
      ((assocFind (npsKey t) (npsStep st t)).getD []).length
        ≤ ((assocFind (npsKey t) st).getD []).length := by
  have h1 : isBuyPush t = false := by
    simp [isBuyPush, hbuy, not_lt.mpr hneg.le]
  have h2 : isSaleType t = true := by
    simp [isSaleType, hneg]
  have hstep :
      npsStep st t
        = assocSet (npsKey t) (consumeLots |t.units| ((assocFind (npsKey t) st).getD [])) st := by
    simp [npsStep, h1, h2]
  refine ⟨hstep, ?_⟩
  rw [hstep, assocFind_assocSet_self]
  exact consumeLots_length_le _ _

/-- Witness for `c10_negative_buy_consumes` on a one-lot state. -/
theorem c10_negative_buy_consumes_witness :
    npsStep lotSt0 prepNegBuy
        = assocSet (npsKey prepNegBuy)
            (consumeLots |prepNegBuy.units| ((assocFind (npsKey prepNegBuy) lotSt0).getD []))
            lotSt0 :=
  (c10_negative_buy_consumes lotSt0 prepNegBuy (by with_unfolding_all decide)
    (by with_unfolding_all decide)).1

/-! ## C7 — the aggregators are deterministic -/

/-- C7: each aggregator is a pure function of its transaction snapshot
(and price map): identical inputs produce identical outputs. -/
theorem c7_aggregators_deterministic
    (nps₁ nps₂ : List NPSTx) (cmp₁ cmp₂ : String → Option ℚ)
    (ppf₁ ppf₂ : List PPFTx) (epf₁ epf₂ : List EPFTx) (bank₁ bank₂ : List BankTx)
    (hn : nps₁ = nps₂) (hc : cmp₁ = cmp₂) (hp : ppf₁ = ppf₂) (he : epf₁ = epf₂)
    (hb : bank₁ = bank₂) :
    calculateNPSHoldings nps₁ cmp₁ = calculateNPSHoldings nps₂ cmp₂ ∧
      calculatePPFHoldings ppf₁ = calculatePPFHoldings ppf₂ ∧
      calculateEPFHoldings epf₁ = calculateEPFHoldings epf₂ ∧
      calculateBankHoldings bank₁ = calculateBankHoldings bank₂ := by
  subst hn hc hp he hb
  exact ⟨rfl, rfl, rfl, rfl⟩

/-- Witness for `c7_aggregators_deterministic` at concrete snapshots. -/
theorem c7_aggregators_deterministic_witness :
    calculateNPSHoldings npsCexTxns (fun _ => some 3)
        = calculateNPSHoldings npsCexTxns (fun _ => some 3) ∧
      calculatePPFHoldings ppfSpecExample = calculatePPFHoldings ppfSpecExample ∧
      calculateEPFHoldings [] = calculateEPFHoldings [] ∧
      calculateBankHoldings bankCexTxns = calculateBankHoldings bankCexTxns :=
  c7_aggregators_deterministic npsCexTxns npsCexTxns (fun _ => some 3) (fun _ => some 3)
    ppfSpecExample ppfSpecExample [] [] bankCexTxns bankCexTxns rfl rfl rfl rfl rfl

/-! ## C5 — PPF withdrawals consume interest before principal -/

set_option maxRecDepth 400000 in
/-- C5: a withdrawal reduces the interest bucket first by
`min(amount, interest)` and the remainder reduces principal, each bucket
floored at zero; and on the spec's concrete account history (deposits
totaling 1000, interest credits totaling 200, then a withdrawal of 300)
the result is invested 900, interest 0. -/
theorem c5_ppf_withdrawal_policy :
    (∀ (st : ℚ × ℚ) (t : PPFTx) (a : ℚ),
        jsLower (jsStr t.transaction_type) = "withdrawal" →
        toNumber t.amount = a →
        0 ≤ a → 0 ≤ st.1 → 0 ≤ st.2 →
        ppfStep st t = (st.1 - min (a - min a st.2) st.1, st.2 - min a st.2) ∧
          0 ≤ (ppfStep st t).1 ∧ 0 ≤ (ppfStep st t).2) ∧
      calculatePPFHoldings ppfSpecExample = ⟨900, 0, 900⟩ := by
  constructor
  · intro st t a hty hamt _ha h1 h2
    have hstep : ppfStep st t = (st.1 - min (a - min a st.2) st.1, st.2 - min a st.2) := by
      unfold ppfStep
      rw [hty, hamt, if_neg (by decide), if_neg (by decide), if_pos rfl]
    refine ⟨hstep, ?_, ?_⟩
    · rw [hstep]
      exact sub_nonneg.mpr (min_le_right _ _)
    · rw [hstep]
      exact sub_nonneg.mpr (min_le_right _ _)
  · with_unfolding_all decide

/-- Witness for `c5_ppf_withdrawal_policy` at the accumulator state
(invested 1000, interest 200) and a withdrawal of 300. -/
theorem c5_ppf_withdrawal_policy_witness :
    ppfStep (1000, 200) ppfWithdrawTx
      = ((1000 : ℚ) - min ((300 : ℚ) - min 300 200) 1000, (200 : ℚ) - min 300 200) :=
  (c5_ppf_withdrawal_policy.1 (1000, 200) ppfWithdrawTx 300 (by with_unfolding_all decide)
    (by with_unfolding_all decide) (by norm_num) (by norm_num) (by norm_num)).1

/-! ## Stable-sort lemmas -/

/-- Inserting is a permutation of consing. -/
theorem insertLe_perm {α : Type} (le : α → α → Bool) (x : α) (l : List α) :
    List.Perm (insertLe le x l) (x :: l) := by
  induction l with
  | nil => exact List.Perm.refl _
  | cons y ys ih =>
    rw [insertLe]
    split
    · exact List.Perm.trans (List.Perm.cons y ih) (List.Perm.swap x y ys)
    · exact List.Perm.refl _

/-- The insertion fold permutes the already-inserted prefix with the rest. -/
theorem foldl_insertLe_perm {α : Type} (le : α → α → Bool) (l acc : List α) :
    List.Perm (l.foldl (fun a x => insertLe le x a) acc) (acc ++ l) := by
  induction l generalizing acc with
  | nil => simp
  | cons x xs ih =>
    refine List.Perm.trans (ih (insertLe le x acc)) ?_
    have h1 : List.Perm (insertLe le x acc ++ xs) ((x :: acc) ++ xs) :=
      List.Perm.append_right xs (insertLe_perm le x acc)
    exact List.Perm.trans h1 List.perm_middle.symm

/-- The stable sort is a permutation of its input. -/
theorem stableSort_perm {α : Type} (le : α → α → Bool) (l : List α) :
    List.Perm (stableSort le l) l := by
  simpa using foldl_insertLe_perm le l []

/-- Inserting an element everything accepts appends it. -/
theorem insertLe_of_all {α : Type} (le : α → α → Bool) (x : α) (l : List α)
    (h : ∀ y ∈ l, le y x = true) : insertLe le x l = l ++ [x] := by
  induction l with
  | nil => rfl
  | cons y ys ih =>
    rw [insertLe, if_pos (h y (List.mem_cons_self y ys))]
    rw [ih fun z hz => h z (List.mem_cons_of_mem y hz)]
    rfl

/-- Folding insertion over an already le-sorted list appends it. -/
theorem foldl_insertLe_of_sorted {α : Type} (le : α → α → Bool) (l : List α) :
    ∀ acc : List α, l.Pairwise (fun a b => le a b = true) →
      (∀ x ∈ l, ∀ y ∈ acc, le y x = true) →
      l.foldl (fun a x => insertLe le x a) acc = acc ++ l := by
  induction l with
  | nil => intro acc _ _; simp
  | cons x xs ih =>
    intro acc hp hacc
    have hx : insertLe le x acc = acc ++ [x] :=
      insertLe_of_all le x acc (hacc x (List.mem_cons_self x xs))
    rw [List.foldl_cons, hx,
      ih (acc ++ [x]) (List.pairwise_cons.mp hp).2 ?_]
    · simp
    · intro z hz y hy
      rcases List.mem_append.mp hy with hy | hy
      · exact hacc z (List.mem_cons_of_mem x hz) y hy
      · have hyx : y = x := by simpa using hy
        subst hyx
        exact (List.pairwise_cons.mp hp).1 z hz

/-- A list sorted for the comparator is left unchanged by the stable sort. -/
theorem stableSort_of_sorted {α : Type} (le : α → α → Bool) (l : List α)
    (hp : l.Pairwise (fun a b => le a b = true)) : stableSort le l = l := by
  rw [stableSort, foldl_insertLe_of_sorted le l [] hp (by intro x _ y hy; cases hy)]
  rfl

/-! ## Lot-map lemmas -/

/-- Reading a different key after a write. -/
theorem assocFind_assocSet_ne {α : Type} {k k₀ : String} (v : α) (st : List (String × α))
    (h : k ≠ k₀) : assocFind k (assocSet k₀ v st) = assocFind k st := by
  induction st with
  | nil => simp only [assocSet, assocFind, if_neg (show ¬k₀ = k from fun hk => h hk.symm)]
  | cons e rest ih =>
    rw [assocSet]
    split
    · rename_i he
      rw [assocFind, assocFind, if_neg, if_neg]
      · exact fun hk => h (hk ▸ he)
      · exact fun hk => h (hk ▸ he)
    · rw [assocFind, assocFind]
      split
      · rfl
      · exact ih

/-- A found entry is a member. -/
theorem mem_of_assocFind {α : Type} {k : String} {v : α} :
    ∀ {st : List (String × α)}, assocFind k st = some v → (k, v) ∈ st := by
  intro st
  induction st with
  | nil => intro h; cases h
  | cons e rest ih =>
    rw [assocFind]
    split
    · rename_i he
      intro h
      cases h
      exact he ▸ List.mem_cons_self _ _
    · intro h
      exact List.mem_cons_of_mem _ (ih h)

/-- Entries after a write are the written pair or old entries. -/
theorem mem_assocSet {α : Type} {k : String} {v : α} {e : String × α} :
    ∀ {st : List (String × α)}, e ∈ assocSet k v st → e = (k, v) ∨ e ∈ st := by
  intro st
  induction st with
  | nil =>
    intro h
    rcases List.mem_singleton.mp h with h
    exact Or.inl h
  | cons e₀ rest ih =>
    rw [assocSet]
    split
    · rename_i he
      intro h
      rcases List.mem_cons.mp h with h | h
      · exact Or.inl (by rw [h, he])
      · exact Or.inr (List.mem_cons_of_mem _ h)
    · intro h
      rcases List.mem_cons.mp h with h | h
      · exact Or.inr (h ▸ List.mem_cons_self _ _)
      · rcases ih h with h | h
        · exact Or.inl h
        · exact Or.inr (List.mem_cons_of_mem _ h)

/-! ## FIFO branch lemmas -/

/-- The buy branch pushes a lot at the back of its key's queue. -/
theorem npsStep_buy_eq (st : List (String × List Lot)) (t : PrepTx)
    (h : isBuyPush t = true) :
    npsStep st t
      = assocSet (npsKey t) (((assocFind (npsKey t) st).getD []) ++ [mkLot t]) st := by
  simp [npsStep, h]

/-- The sale branch consumes from the front of its key's queue. -/
theorem npsStep_sale_eq (st : List (String × List Lot)) (t : PrepTx)
    (h1 : isBuyPush t = false) (h2 : isSaleType t = true) :
    npsStep st t
      = assocSet (npsKey t) (consumeLots |t.units| ((assocFind (npsKey t) st).getD [])) st := by
  simp [npsStep, h1, h2]

/-- Transactions on neither branch rewrite their key's queue unchanged. -/
theorem npsStep_other_eq (st : List (String × List Lot)) (t : PrepTx)
    (h1 : isBuyPush t = false) (h2 : isSaleType t = false) :
    npsStep st t = assocSet (npsKey t) ((assocFind (npsKey t) st).getD []) st := by
  simp [npsStep, h1, h2]

/-- A zero-or-dust remaining quantity stops the FIFO loop immediately. -/
theorem consumeLots_of_le_eps (r : ℚ) (q : List Lot) (h : r ≤ npsEps) :
    consumeLots r q = q := by
  cases q with
  | nil => rfl
  | cons lot rest => rw [consumeLots, if_pos h]

/-- Selling exactly the head lot's (above-dust) units removes it and
leaves the rest untouched. -/
theorem consumeLots_exact (u : ℚ) (lot : Lot) (rest : List Lot)
    (hu : lot.units = u) (heps : npsEps < u) : consumeLots u (lot :: rest) = rest := by
  rw [consumeLots, if_neg (not_le.mpr heps)]
  simp only [hu, min_self, sub_self]
  rw [if_pos (by norm_num [npsEps])]
  exact consumeLots_of_le_eps _ _ (by norm_num [npsEps])

/-- Processing same-key buys appends their lots in order. -/
theorem npsProcess_buys (k : String) (buys : List PrepTx) :
    ∀ st : List (String × List Lot),
      (∀ t ∈ buys, npsKey t = k) → (∀ t ∈ buys, isBuyPush t = true) →
      (assocFind k (buys.foldl npsStep st)).getD []
        = ((assocFind k st).getD []) ++ buys.map mkLot := by
  induction buys with
  | nil => intro st _ _; simp
  | cons b bs ih =>
    intro st hk hb
    have hkb : npsKey b = k := hk b (List.mem_cons_self b bs)
    rw [List.foldl_cons,
      ih (npsStep st b) (fun t ht => hk t (List.mem_cons_of_mem b ht))
        (fun t ht => hb t (List.mem_cons_of_mem b ht)),
      npsStep_buy_eq st b (hb b (List.mem_cons_self b bs)), hkb,
      assocFind_assocSet_self]
    simp

/-! ## C4 — selling exactly the first lot removes it and only it -/

/-- C4: for same-key lots bought at strictly increasing dates followed by a
single sale dated after all of them, of exactly the first lot's units, the
processing fold removes the first lot entirely and leaves every remaining
lot (units and cost) unchanged. -/
theorem c4_fifo_sells_first_lot (b : PrepTx) (bs : List PrepTx) (sale : PrepTx) (k : String)
    (hk : ∀ t ∈ b :: bs, npsKey t = k)
    (hbuy : ∀ t ∈ b :: bs, isBuyPush t = true)
    (heps : npsEps < b.units)
    (hks : npsKey sale = k)
    (hs1 : isBuyPush sale = false)
    (hs2 : isSaleType sale = true)
    (hamt : |sale.units| = b.units)
    (hd : ((b :: bs) ++ [sale]).Pairwise (fun a c => effLt a c = true)) :
    (assocFind k (npsProcess (stableSort npsCmpLe ((b :: bs) ++ [sale])))).getD []
      = bs.map mkLot := by
  have hcmp : ((b :: bs) ++ [sale]).Pairwise (fun a c => npsCmpLe a c = true) := by
    refine hd.imp ?_
    intro a c h
    unfold effLt at h
    unfold npsCmpLe
    cases ha : a.eff <;> cases hc : c.eff <;> rw [ha, hc] at h <;> simp_all
    rename_i ta tc
    have : ta < tc := by simpa using h
    rw [if_neg (Int.ne_of_lt this)]
    simpa using Int.le_of_lt this
  rw [stableSort_of_sorted npsCmpLe _ hcmp, npsProcess, List.foldl_append,
    List.foldl_cons, List.foldl_nil,
    npsStep_sale_eq _ sale hs1 hs2, hks, assocFind_assocSet_self, Option.getD_some,
    npsProcess_buys k (b :: bs) [] hk hbuy, hamt]
  have hq : (assocFind k ([] : List (String × List Lot))).getD [] = [] := rfl
  rw [hq, List.nil_append, List.map_cons]
  exact consumeLots_exact b.units (mkLot b) (bs.map mkLot) rfl heps

/-- Witness for `c4_fifo_sells_first_lot`: two buys then the exact sale of
the first lot's units. -/
theorem c4_fifo_sells_first_lot_witness :
    (assocFind "S||A"
        (npsProcess (stableSort npsCmpLe
          ([{ schemeName := "S", accountName := "A", type := "buy", units := 10, nav := 2,
              eff := .fin 1, index := 0 },
            { schemeName := "S", accountName := "A", type := "buy", units := 20, nav := 3,
              eff := .fin 2, index := 1 }] ++
           [{ schemeName := "S", accountName := "A", type := "sell", units := -10, nav := 0,
              eff := .fin 3, index := 2 }])))).getD []
      = [{ schemeName := "S", accountName := "A", type := "buy", units := 20, nav := 3,
           eff := ETime.fin 2, index := 1 }].map mkLot := by
  refine c4_fifo_sells_first_lot _ _ _ _ ?_ ?_ ?_ ?_ ?_ ?_ ?_ ?_
  · with_unfolding_all decide
  · with_unfolding_all decide
  · with_unfolding_all decide
  · with_unfolding_all decide
  · with_unfolding_all decide
  · with_unfolding_all decide
  · with_unfolding_all decide
  · with_unfolding_all decide

/-! ## C3 — conservation of open units -/

/-- An integer-valued rational. -/
def IsInt (q : ℚ) : Prop := ∃ n : ℤ, (n : ℚ) = q

theorem IsInt.sub {a b : ℚ} (ha : IsInt a) (hb : IsInt b) : IsInt (a - b) := by
  rcases ha with ⟨m, rfl⟩
  rcases hb with ⟨n, rfl⟩
  exact ⟨m - n, by push_cast; ring⟩

theorem IsInt.min {a b : ℚ} (ha : IsInt a) (hb : IsInt b) : IsInt (Min.min a b) := by
  rcases ha with ⟨m, rfl⟩
  rcases hb with ⟨n, rfl⟩
  refine ⟨Min.min m n, ?_⟩
  push_cast
  rfl

theorem IsInt.abs {a : ℚ} (ha : IsInt a) : IsInt |a| := by
  rcases ha with ⟨m, rfl⟩
  exact ⟨|m|, by push_cast; rfl⟩

/-- A nonnegative integer at or below the dust threshold is zero. -/
theorem IsInt.zero_of_le_eps {r : ℚ} (h : IsInt r) (h0 : 0 ≤ r) (he : r ≤ npsEps) : r = 0 := by
  rcases h with ⟨n, rfl⟩
  have h1 : (0 : ℤ) ≤ n := by exact_mod_cast h0
  have h2 : ((n : ℚ)) < 1 := lt_of_le_of_lt he (by norm_num [npsEps])
  have h3 : n < 1 := by exact_mod_cast h2
  have h4 : n = 0 := by omega
  simp [h4]

/-- Lots surviving a FIFO consumption keep positive units. -/
theorem consumeLots_pos (r : ℚ) (q : List Lot) (hq : ∀ lot ∈ q, 0 < lot.units) :
    ∀ lot ∈ consumeLots r q, 0 < lot.units := by
  induction q generalizing r with
  | nil => intro lot h; simp [consumeLots] at h
  | cons a rest ih =>
    rw [consumeLots]
    split
    · exact hq
    · dsimp only
      split
      · exact ih _ fun lot h => hq lot (List.mem_cons_of_mem a h)
      · rename_i hre hu
        intro lot h
        rcases List.mem_cons.mp h with h | h
        · rw [h]
          have : npsEps < a.units - min r a.units := not_le.mp hu
          have h0 : (0 : ℚ) < npsEps := by norm_num [npsEps]
          exact lt_trans h0 this
        · exact hq lot (List.mem_cons_of_mem a h)

/-- FIFO consumption with an integral quantity keeps queue lots integral
and positive. -/
theorem consumeLots_intpos (r : ℚ) (q : List Lot) (hr : IsInt r)
    (hq : ∀ lot ∈ q, IsInt lot.units ∧ 0 < lot.units) :
    ∀ lot ∈ consumeLots r q, IsInt lot.units ∧ 0 < lot.units := by
  induction q generalizing r with
  | nil => intro lot h; simp [consumeLots] at h
  | cons a rest ih =>
    rw [consumeLots]
    split
    · exact hq
    · dsimp only
      split
      · refine ih _ (hr.sub (hr.min (hq a (List.mem_cons_self a rest)).1)) ?_
        exact fun lot h => hq lot (List.mem_cons_of_mem a h)
      · rename_i hre hu
        intro lot h
        rcases List.mem_cons.mp h with h | h
        · rw [h]
          constructor
          · exact ((hq a (List.mem_cons_self a rest)).1).sub
              (hr.min (hq a (List.mem_cons_self a rest)).1)
          · have : npsEps < a.units - min r a.units := not_le.mp hu
            have h0 : (0 : ℚ) < npsEps := by norm_num [npsEps]
            exact lt_trans h0 this
        · exact hq lot (List.mem_cons_of_mem a h)

/-- For whole-unit queues, a covered integral sale removes exactly its
quantity from the queue's unit total. -/
theorem consumeLots_sum (r : ℚ) (q : List Lot) (hr : IsInt r) (h0 : 0 ≤ r)
    (hq : ∀ lot ∈ q, IsInt lot.units ∧ 0 < lot.units)
    (hle : r ≤ (q.map Lot.units).sum) :
    ((consumeLots r q).map Lot.units).sum = (q.map Lot.units).sum - r := by
  induction q generalizing r with
  | nil =>
    have hr0 : r = 0 := le_antisymm (by simpa using hle) h0
    simp [consumeLots, hr0]
  | cons a rest ih =>
    have hia := (hq a (List.mem_cons_self a rest)).1
    have hpa := (hq a (List.mem_cons_self a rest)).2
    rw [consumeLots]
    split
    · rename_i hre
      have hr0 : r = 0 := hr.zero_of_le_eps h0 hre
      simp [hr0]
    · rename_i hre
      dsimp only
      split
      · rename_i hu
        have hint_u : IsInt (a.units - min r a.units) := hia.sub (hr.min hia)
        have h0u : (0 : ℚ) ≤ a.units - min r a.units := sub_nonneg.mpr (min_le_right _ _)
        have hu0 : a.units - min r a.units = 0 := hint_u.zero_of_le_eps h0u hu
        have hmin : min r a.units = a.units := by linarith
        have hle2 : a.units ≤ r := by
          rcases min_choice r a.units with h | h
          · rw [h] at hmin; linarith [min_le_right r a.units]
          · exact hmin ▸ min_le_left r a.units
        rw [hmin, ih (r - a.units) (hr.sub hia) (sub_nonneg.mpr hle2)
          (fun lot h => hq lot (List.mem_cons_of_mem a h))
          (by simpa using sub_le_sub_right hle a.units)]
        simp only [List.map_cons, List.sum_cons]
        ring
      · rename_i hu
        have hmin : min r a.units = r := by
          rcases min_choice r a.units with h | h
          · exact h
          · exfalso
            rw [h, sub_self] at hu
            have : (0 : ℚ) < npsEps := by norm_num [npsEps]
            exact hu (le_of_lt this)
        simp only [List.map_cons, List.sum_cons]
        rw [hmin]
        ring

/-- A member of a looked-up queue belongs to an entry of the map. -/
theorem mem_queue_of_mem_getD {α : Type} {k : String} {st : List (String × List α)} {x : α}
    (h : x ∈ (assocFind k st).getD []) : ∃ q, (k, q) ∈ st ∧ x ∈ q := by
  cases hf : assocFind k st with
  | none => rw [hf] at h; simp at h
  | some q => exact ⟨q, mem_of_assocFind hf, by rwa [hf] at h⟩

/-- The buy branch requires strictly positive units. -/
theorem isBuyPush_pos {t : PrepTx} (h : isBuyPush t = true) : 0 < t.units := by
  simp only [isBuyPush, Bool.and_eq_true, decide_eq_true_eq] at h
  exact h.2

/-- The two positivity facts carried by every reachable lot state: the step
keeps all queue units (integral and) positive. -/
theorem npsStep_queues (P : Lot → Prop) (st : List (String × List Lot)) (t : PrepTx)
    (hst : ∀ e ∈ st, ∀ lot ∈ e.2, P lot)
    (hpush : isBuyPush t = true → P (mkLot t))
    (hcons : ∀ q : List Lot, (∀ lot ∈ q, P lot) → ∀ lot ∈ consumeLots |t.units| q, P lot) :
    ∀ e ∈ npsStep st t, ∀ lot ∈ e.2, P lot := by
  intro e he lot hl
  simp only [npsStep] at he
  have hqall : ∀ l2 ∈ (assocFind (npsKey t) st).getD [], P l2 := by
    intro l2 h2
    rcases mem_queue_of_mem_getD h2 with ⟨q, hmem, hx⟩
    exact hst _ hmem _ hx
  rcases mem_assocSet he with rfl | he
  · dsimp only at hl
    by_cases hb : isBuyPush t = true
    · rw [if_pos hb] at hl
      rcases List.mem_append.mp hl with hl | hl
      · exact hqall lot hl
      · have : lot = mkLot t := by simpa using hl
        rw [this]
        exact hpush hb
    · rw [if_neg hb] at hl
      by_cases hs : isSaleType t = true
      · rw [if_pos hs] at hl
        exact hcons _ hqall lot hl
      · rw [if_neg hs] at hl
        exact hqall lot hl
  · exact hst e he lot hl

/-- Every reachable queue holds only positive-unit lots. -/
theorem npsProcess_pos (L : List PrepTx) :
    ∀ st : List (String × List Lot), (∀ e ∈ st, ∀ lot ∈ e.2, 0 < lot.units) →
      ∀ e ∈ L.foldl npsStep st, ∀ lot ∈ e.2, 0 < lot.units := by
  induction L with
  | nil => intro st hst; exact hst
  | cons t rest ih =>
    intro st hst
    rw [List.foldl_cons]
    refine ih (npsStep st t) (npsStep_queues _ st t hst ?_ ?_)
    · intro hb
      simpa [mkLot] using isBuyPush_pos hb
    · exact fun q hq => consumeLots_pos _ q hq

/-- With whole-unit transactions every reachable queue holds only integral
positive lots. -/
theorem npsProcess_intpos (L : List PrepTx) :
    ∀ st : List (String × List Lot),
      (∀ e ∈ st, ∀ lot ∈ e.2, IsInt lot.units ∧ 0 < lot.units) →
      (∀ t ∈ L, IsInt t.units) →
      ∀ e ∈ L.foldl npsStep st, ∀ lot ∈ e.2, IsInt lot.units ∧ 0 < lot.units := by
  induction L with
  | nil => intro st hst _; exact hst
  | cons t rest ih =>
    intro st hst hints
    rw [List.foldl_cons]
    refine ih (npsStep st t)
      (npsStep_queues _ st t hst ?_ ?_) fun u hu => hints u (List.mem_cons_of_mem t hu)
    · intro hb
      refine ⟨?_, ?_⟩
      · simpa [mkLot] using hints t (List.mem_cons_self t rest)
      · simpa [mkLot] using isBuyPush_pos hb
    · exact fun q hq =>
        consumeLots_intpos _ q ((hints t (List.mem_cons_self t rest)).abs) hq

/-- How one step changes the open-unit total of an arbitrary key. -/
theorem openUnits_npsStep (st : List (String × List Lot)) (t : PrepTx) (k : String)
    (hst : ∀ e ∈ st, ∀ lot ∈ e.2, IsInt lot.units ∧ 0 < lot.units)
    (hint : IsInt t.units)
    (hov : isBuyPush t = false → isSaleType t = true →
      |t.units| ≤ openUnitsForKey (npsKey t) st) :
    openUnitsForKey k (npsStep st t)
      = openUnitsForKey k st
        + (if npsKey t = k ∧ isBuyPush t = true then t.units else 0)
        - (if npsKey t = k ∧ isBuyPush t = false ∧ isSaleType t = true then |t.units| else 0) := by
  have hqall : ∀ l2 ∈ (assocFind (npsKey t) st).getD [],
      IsInt l2.units ∧ 0 < l2.units := by
    intro l2 h2
    rcases mem_queue_of_mem_getD h2 with ⟨q, hmem, hx⟩
    exact hst _ hmem _ hx
  by_cases hkk : npsKey t = k
  · subst hkk
    by_cases hb : isBuyPush t = true
    · rw [npsStep_buy_eq st t hb, openUnitsForKey, assocFind_assocSet_self, Option.getD_some,
        if_pos ⟨rfl, hb⟩, if_neg (by simp [hb])]
      simp [openUnitsForKey, mkLot]
    · have hb' : isBuyPush t = false := by simpa using hb
      by_cases hs : isSaleType t = true
      · rw [npsStep_sale_eq st t hb' hs, openUnitsForKey, assocFind_assocSet_self,
          Option.getD_some,
          consumeLots_sum _ _ hint.abs (abs_nonneg _) hqall (hov hb' hs),
          if_neg (by simp [hb']), if_pos ⟨rfl, hb', hs⟩]
        rw [openUnitsForKey]
        ring
      · have hs' : isSaleType t = false := by simpa using hs
        rw [npsStep_other_eq st t hb' hs', openUnitsForKey, assocFind_assocSet_self,
          Option.getD_some, if_neg (by simp [hb']), if_neg (by simp [hs'])]
        rw [openUnitsForKey]
        ring
  · have hfind : assocFind k (npsStep st t) = assocFind k st := by
      simp only [npsStep]
      exact assocFind_assocSet_ne _ st fun h => hkk h.symm
    rw [openUnitsForKey, hfind, if_neg (by tauto), if_neg (by tauto)]
    rw [openUnitsForKey]
    ring

theorem boughtForKey_cons (k : String) (t : PrepTx) (rest : List PrepTx) :
    boughtForKey k (t :: rest)
      = (if npsKey t = k ∧ isBuyPush t = true then t.units else 0) + boughtForKey k rest := by
  by_cases hc : npsKey t = k ∧ isBuyPush t = true
  · have hb : (npsKey t == k && isBuyPush t) = true := by simp [hc.1, hc.2]
    simp [boughtForKey, List.filter_cons, hb, hc]
  · have hb : ¬((npsKey t == k && isBuyPush t) = true) := by
      simpa [Bool.and_eq_true, beq_iff_eq] using hc
    simp [boughtForKey, List.filter_cons, hb, hc]

theorem soldForKey_cons (k : String) (t : PrepTx) (rest : List PrepTx) :
    soldForKey k (t :: rest)
      = (if npsKey t = k ∧ isBuyPush t = false ∧ isSaleType t = true then |t.units| else 0)
        + soldForKey k rest := by
  by_cases hc : npsKey t = k ∧ isBuyPush t = false ∧ isSaleType t = true
  · have hb : (npsKey t == k && (!isBuyPush t && isSaleType t)) = true := by
      simp [hc.1, hc.2.1, hc.2.2]
    simp [soldForKey, List.filter_cons, hb, hc]
  · have hb : ¬((npsKey t == k && (!isBuyPush t && isSaleType t)) = true) := by
      simp only [Bool.and_eq_true, beq_iff_eq, Bool.not_eq_true']
      tauto
    simp [soldForKey, List.filter_cons, hb, hc]

/-- The conservation ledger over one fold: starting units plus buys minus
(covered, integral) sales. -/
theorem nps_conservation_aux (L : List PrepTx) :
    ∀ st : List (String × List Lot),
      (∀ e ∈ st, ∀ lot ∈ e.2, IsInt lot.units ∧ 0 < lot.units) →
      (∀ t ∈ L, IsInt t.units) →
      npsNoOverdraw st L = true →
      ∀ k, openUnitsForKey k (L.foldl npsStep st)
        = openUnitsForKey k st + boughtForKey k L - soldForKey k L := by
  induction L with
  | nil =>
    intro st _ _ _ k
    simp [boughtForKey, soldForKey]
  | cons t rest ih =>
    intro st hst hints hov k
    rw [npsNoOverdraw, Bool.and_eq_true] at hov
    rcases hov with ⟨hg, hrest⟩
    have hcov : isBuyPush t = false → isSaleType t = true →
        |t.units| ≤ openUnitsForKey (npsKey t) st := by
      intro hb' hs
      rw [if_pos ⟨by simp [hb'], hs⟩] at hg
      exact of_decide_eq_true hg
    have hst' : ∀ e ∈ npsStep st t, ∀ lot ∈ e.2, IsInt lot.units ∧ 0 < lot.units := by
      refine npsStep_queues _ st t hst ?_ ?_
      · intro hb
        refine ⟨?_, ?_⟩
        · simpa [mkLot] using hints t (List.mem_cons_self t rest)
        · simpa [mkLot] using isBuyPush_pos hb
      · exact fun q hq =>
          consumeLots_intpos _ q ((hints t (List.mem_cons_self t rest)).abs) hq
    rw [List.foldl_cons,
      ih (npsStep st t) hst' (fun u hu => hints u (List.mem_cons_of_mem t hu)) hrest k,
      openUnits_npsStep st t k hst (hints t (List.mem_cons_self t rest)) hcov,
      boughtForKey_cons, soldForKey_cons]
    ring

/-- C3 counterexample: buy 5, oversell 10, then buy 7 for one key; the open
units end at 7, but total bought minus total sold clamped at 0 is 2. -/
theorem c3_counterexample :
    openUnitsForKey "S||A" (npsProcess (npsSorted npsCexTxns))
      ≠ max 0 (boughtForKey "S||A" (npsSorted npsCexTxns)
          - soldForKey "S||A" (npsSorted npsCexTxns)) := by
  with_unfolding_all decide

/-- C3 (amended): after any processed sequence each key's open-unit sum is
never negative, and it equals total bought minus total sold exactly when
all unit quantities are whole numbers and no sale exceeds the units open
for its key at its point in the sequence (an overdrawing sale's excess is
dropped while later buys still count in full, so the clamped difference
`max 0 (bought − sold)` can understate the open units). -/
theorem c3_conservation (transactions : List NPSTx) (k : String) :
    0 ≤ openUnitsForKey k (npsProcess (npsSorted transactions)) ∧
      ((∀ t ∈ npsSorted transactions, (t.units).den = 1) →
        npsNoOverdraw [] (npsSorted transactions) = true →
        openUnitsForKey k (npsProcess (npsSorted transactions))
          = boughtForKey k (npsSorted transactions) - soldForKey k (npsSorted transactions)) := by
  constructor
  · have hpos := npsProcess_pos (npsSorted transactions) [] (by intro e he; cases he)
    rw [openUnitsForKey]
    cases hf : assocFind k (npsProcess (npsSorted transactions)) with
    | none => simp
    | some q =>
      refine List.sum_nonneg ?_
      intro x hx
      rcases List.mem_map.mp hx with ⟨lot, hl, rfl⟩
      exact le_of_lt (hpos _ (mem_of_assocFind hf) lot hl)
  · intro hden hov
    have hints : ∀ t ∈ npsSorted transactions, IsInt t.units := by
      intro t ht
      exact ⟨(t.units).num, Rat.coe_int_num_of_den_eq_one (hden t ht)⟩
    have := nps_conservation_aux (npsSorted transactions) [] (by intro e he; cases he)
      hints hov k
    rw [npsProcess, this]
    simp [openUnitsForKey, assocFind]

/-- Witness for `c3_conservation`: buy 10 then sell 4 in whole units with
full coverage leaves 6 open units. -/
theorem c3_conservation_witness :
    0 ≤ openUnitsForKey "S||A" (npsProcess (npsSorted npsCoveredTxns)) ∧
      openUnitsForKey "S||A" (npsProcess (npsSorted npsCoveredTxns))
        = boughtForKey "S||A" (npsSorted npsCoveredTxns)
          - soldForKey "S||A" (npsSorted npsCoveredTxns) :=
  ⟨(c3_conservation npsCoveredTxns "S||A").1,
   (c3_conservation npsCoveredTxns "S||A").2 (by with_unfolding_all decide)
     (by with_unfolding_all decide)⟩

/-! ## C2 — the latest-month bank snapshot -/

/-- `find?` returns the unique matching element. -/
theorem find?_eq_some_of_unique {α : Type} (p : α → Bool) (l : List α) (m : α)
    (hm : m ∈ l) (hp : p m = true) (hu : ∀ x ∈ l, p x = true → x = m) :
    l.find? p = some m := by
  induction l with
  | nil => cases hm
  | cons a rest ih =>
    by_cases hpa : p a = true
    · rw [List.find?_cons_of_pos rest hpa, hu a (List.mem_cons_self a rest) hpa]
    · rw [List.find?_cons_of_neg rest (by simpa using hpa)]
      rcases List.mem_cons.mp hm with rfl | hm2
      · exact absurd hp hpa
      · exact ih hm2 fun x hx hpx => hu x (List.mem_cons_of_mem a hx) hpx

/-- Terms vanishing off the filter can be summed over the filter alone. -/
theorem sum_map_eq_sum_filter {α : Type} (p : α → Bool) (f : α → ℚ) (l : List α)
    (h : ∀ t ∈ l, p t = false → f t = 0) :
    (l.map f).sum = ((l.filter p).map f).sum := by
  induction l with
  | nil => rfl
  | cons a rest ih =>
    rw [List.map_cons, List.sum_cons, List.filter_cons]
    by_cases hp : p a = true
    · rw [if_pos hp, List.map_cons, List.sum_cons,
        ih fun t ht => h t (List.mem_cons_of_mem a ht)]
    · have hp2 : p a = false := by simpa using hp
      rw [if_neg (by simp [hp2]), h a (List.mem_cons_self a rest) hp2,
        ih fun t ht => h t (List.mem_cons_of_mem a ht), zero_add]

/-- Appending to a group adds its term to the grouped total. -/
theorem pushEntry_groupSum {α : Type} (f : α → ℚ) (k : String) (v : α)
    (gs : List (String × List α)) :
    ((pushEntry k v gs).map fun g => (g.2.map f).sum).sum
      = ((gs.map fun g => (g.2.map f).sum).sum) + f v := by
  induction gs with
  | nil => simp [pushEntry]
  | cons e rest ih =>
    obtain ⟨k0, vs⟩ := e
    rw [pushEntry]
    split
    · simp only [List.map_cons, List.sum_cons, List.map_append, List.sum_append]
      simp
      ring
    · simp only [List.map_cons, List.sum_cons, ih]
      ring

/-- Grouping preserves totals: summing each group's terms sums the list. -/
theorem groupByKey_groupSum {α : Type} (key : α → String) (f : α → ℚ) (l : List α) :
    ((groupByKey key l).map fun g => (g.2.map f).sum).sum = (l.map f).sum := by
  suffices h : ∀ acc : List (String × List α),
      ((l.foldl (fun a x => pushEntry (key x) x a) acc).map fun g => (g.2.map f).sum).sum
        = ((acc.map fun g => (g.2.map f).sum).sum) + (l.map f).sum by
    simpa [groupByKey] using h []
  induction l with
  | nil => intro acc; simp
  | cons x xs ih =>
    intro acc
    rw [List.foldl_cons, ih (pushEntry (key x) x acc), pushEntry_groupSum,
      List.map_cons, List.sum_cons]
    ring

/-- A member of a pushed-into group was already grouped or is the new value. -/
theorem mem_pushEntry {α : Type} {k : String} {v x : α} {gs : List (String × List α)}
    {g : String × List α} (hg : g ∈ pushEntry k v gs) (hx : x ∈ g.2) :
    (∃ g0 ∈ gs, x ∈ g0.2) ∨ x = v := by
  induction gs with
  | nil =>
    have hgv : g = (k, [v]) := by simpa [pushEntry] using hg
    rw [hgv] at hx
    right
    simpa using hx
  | cons e rest ih =>
    obtain ⟨k0, vs⟩ := e
    rw [pushEntry] at hg
    by_cases hk : k0 = k
    · rw [if_pos hk] at hg
      rcases List.mem_cons.mp hg with rfl | hg2
      · rcases List.mem_append.mp hx with h | h
        · exact Or.inl ⟨(k0, vs), List.mem_cons_self _ _, h⟩
        · right; simpa using h
      · exact Or.inl ⟨g, List.mem_cons_of_mem _ hg2, hx⟩
    · rw [if_neg hk] at hg
      rcases List.mem_cons.mp hg with rfl | hg2
      · exact Or.inl ⟨(k0, vs), List.mem_cons_self _ _, hx⟩
      · rcases ih hg2 with h | h
        · rcases h with ⟨g0, hg0, hx0⟩
          exact Or.inl ⟨g0, List.mem_cons_of_mem _ hg0, hx0⟩
        · exact Or.inr h

/-- Group members come from the grouped list. -/
theorem mem_of_mem_groupByKey {α : Type} {key : α → String} {l : List α}
    {g : String × List α} {x : α} (hg : g ∈ groupByKey key l) (hx : x ∈ g.2) : x ∈ l := by
  have h : ∀ (l2 : List α) (acc : List (String × List α)),
      g ∈ l2.foldl (fun a y => pushEntry (key y) y a) acc →
      (∃ g0 ∈ acc, x ∈ g0.2) ∨ x ∈ l2 := by
    intro l2
    induction l2 with
    | nil =>
      intro acc hmem
      exact Or.inl ⟨g, hmem, hx⟩
    | cons y ys ih =>
      intro acc hmem
      rw [List.foldl_cons] at hmem
      rcases ih (pushEntry (key y) y acc) hmem with ⟨g0, hg0, hx0⟩ | h
      · rcases mem_pushEntry hg0 hx0 with ⟨g1, hg1, hx1⟩ | h
        · exact Or.inl ⟨g1, hg1, hx1⟩
        · exact Or.inr (h ▸ List.mem_cons_self y ys)
      · exact Or.inr (List.mem_cons_of_mem y h)
  rcases h l [] hg with ⟨g0, hg0, _⟩ | h2
  · cases hg0
  · exact h2

/-- The group fold accumulates each group's savings and demat picks. -/
theorem bank_sums_eq (M : ℤ) (gs : List (String × List BankTx)) :
    ∀ ab : ℚ × ℚ,
      gs.foldl (bankStep M) ab
        = (ab.1 + (gs.map (bankPick M "savings")).sum,
           ab.2 + (gs.map (bankPick M "demat")).sum) := by
  induction gs with
  | nil => intro ab; simp
  | cons g rest ih =>
    intro ab
    have hstep : bankStep M ab g
        = (ab.1 + bankPick M "savings" g, ab.2 + bankPick M "demat" g) := by
      simp only [bankStep, bankPick]
      cases hm : bankGroupMatch M g.2 with
      | none => simp
      | some m =>
        dsimp only
        by_cases hs : (bankType m == "savings") = true
        · have hts : bankType m = "savings" := by simpa using hs
          simp [hts]
        · by_cases hd : (bankType m == "demat") = true
          · have htd : bankType m = "demat" := by simpa using hd
            simp [htd]
          · simp [hs, hd]
    rw [List.foldl_cons, ih (bankStep M ab g), hstep, List.map_cons, List.map_cons,
      List.sum_cons, List.sum_cons, Prod.mk.injEq]
    constructor <;> ring

/-- Per group, with valid dates and at most one latest-month transaction,
the code's pick equals the claim's per-group month sum. -/
theorem bank_group_pick (M : ℤ) (ty : String) (g : String × List BankTx)
    (hvg : ∀ t ∈ g.2, ∃ time ym, t.txn_date = BankDate.valid time ym)
    (hone : (g.2.filter (bankInMonth M)).length ≤ 1) :
    bankPick M ty g = (g.2.map (bankTermF M ty)).sum := by
  have hdated : g.2.filter bankHasDate = g.2 := by
    refine List.filter_eq_self.mpr ?_
    intro t ht
    rcases hvg t ht with ⟨time, ym, hd⟩
    simp [bankHasDate, hd]
  have hperm : List.Perm (stableSort bankCmpLe (g.2.filter bankHasDate)) g.2 := by
    rw [hdated]
    exact stableSort_perm _ _
  cases hml : g.2.filter (bankInMonth M) with
  | nil =>
    have hnone : bankGroupMatch M g.2 = none := by
      rw [bankGroupMatch]
      refine List.find?_eq_none.mpr ?_
      intro x hx
      have hxg : x ∈ g.2 := hperm.subset hx
      simpa using List.filter_eq_nil_iff.mp hml x hxg
    rw [bankPick, hnone]
    symm
    refine List.sum_eq_zero ?_
    intro x hx
    rcases List.mem_map.mp hx with ⟨t, ht, rfl⟩
    have hf : ¬ (bankInMonth M t = true) := List.filter_eq_nil_iff.mp hml t ht
    simp [bankTermF, by simpa using hf]
  | cons m rest =>
    have hlen : rest.length = 0 := by
      rw [hml] at hone
      simp only [List.length_cons] at hone
      omega
    have hrest : rest = [] := List.length_eq_zero.mp hlen
    subst hrest
    have hmem : m ∈ g.2.filter (bankInMonth M) := by
      rw [hml]
      exact List.mem_cons_self m []
    have hm2 : m ∈ g.2 ∧ bankInMonth M m = true :=
      ⟨(List.mem_filter.mp hmem).1, (List.mem_filter.mp hmem).2⟩
    have huniq : ∀ x ∈ g.2, bankInMonth M x = true → x = m := by
      intro x hx hpx
      have : x ∈ g.2.filter (bankInMonth M) := List.mem_filter.mpr ⟨hx, hpx⟩
      rw [hml] at this
      simpa using this
    have hfind : bankGroupMatch M g.2 = some m := by
      rw [bankGroupMatch]
      refine find?_eq_some_of_unique _ _ m (hperm.mem_iff.mpr hm2.1) hm2.2 ?_
      intro x hx hpx
      exact huniq x (hperm.subset hx) hpx
    rw [bankPick, hfind,
      sum_map_eq_sum_filter (bankInMonth M) _ g.2
        (by intro t _ hf; simp [bankTermF, hf]),
      hml]
    simp [bankTermF, hm2.2]

/-- The latest month, when defined, is attained by some transaction. -/
theorem bankLatestMonth_attained (l : List BankTx) :
    ∀ (acc : Option ℤ) (M : ℤ), l.foldl bankMonthStep acc = some M →
      acc = some M ∨ ∃ t ∈ l, ∃ time, t.txn_date = BankDate.valid time M := by
  induction l with
  | nil => intro acc M h; exact Or.inl h
  | cons t rest ih =>
    intro acc M h
    rw [List.foldl_cons] at h
    rcases ih _ _ h with h2 | h2
    · cases hd : t.txn_date with
      | missing =>
        unfold bankMonthStep at h2
        rw [hd] at h2
        exact Or.inl h2
      | invalid =>
        unfold bankMonthStep at h2
        rw [hd] at h2
        exact Or.inl h2
      | valid time ym =>
        unfold bankMonthStep at h2
        rw [hd] at h2
        cases acc with
        | none =>
          dsimp only at h2
          refine Or.inr ⟨t, List.mem_cons_self t rest, time, ?_⟩
          rw [hd]
          have hym : ym = M := by simpa using h2
          rw [hym]
        | some a =>
          dsimp only at h2
          by_cases hgt : ym > a
          · rw [if_pos hgt] at h2
            refine Or.inr ⟨t, List.mem_cons_self t rest, time, ?_⟩
            rw [hd]
            have hym : ym = M := by simpa using h2
            rw [hym]
          · rw [if_neg hgt] at h2
            exact Or.inl h2
    · rcases h2 with ⟨u, hu, time, hval⟩
      exact Or.inr ⟨u, List.mem_cons_of_mem t hu, time, hval⟩

/-- The main branch of `calculateBankHoldings` in closed form. -/
theorem calculateBankHoldings_some (transactions : List BankTx) (M : ℤ)
    (hM : bankLatestMonth (bankFiltered transactions) = some M) (hM0 : ¬M < 0)
    (hne : transactions.isEmpty = false) (hfe : (bankFiltered transactions).isEmpty = false) :
    calculateBankHoldings transactions
      = ⟨((groupByKey bankKey (bankFiltered transactions)).foldl (bankStep M) (0, 0)).1,
         ((groupByKey bankKey (bankFiltered transactions)).foldl (bankStep M) (0, 0)).2,
         ((groupByKey bankKey (bankFiltered transactions)).foldl (bankStep M) (0, 0)).1
           + ((groupByKey bankKey (bankFiltered transactions)).foldl (bankStep M) (0, 0)).2⟩ := by
  unfold calculateBankHoldings
  rw [if_neg (by simp [hne])]
  dsimp only
  rw [if_neg (by simp [hfe]), hM]
  dsimp only
  rw [if_neg hM0]

/-- C2 counterexample: two savings transactions of the same group dated in
the same (latest) month; the code reports only the more recent amount (50),
not the month's sum (150). -/
theorem c2_counterexample :
    (calculateBankHoldings bankCexTxns).savings ≠ bankMonthSum "savings" bankCexTxns ∧
      (calculateBankHoldings bankCexTxns).savings = 50 ∧
      bankMonthSum "savings" bankCexTxns = 150 := by
  with_unfolding_all decide

/-- C2 (amended): `calculateBankHoldings` finds the latest calendar month
and adds, per (account, bank, type) group, only the most recent
transaction of that month; hence whenever every filtered transaction has a
valid, nonnegative-month date and each group has at most one transaction
in the latest month, the savings and demat results equal the sums of the
latest-month amounts (earlier months contribute nothing). -/
theorem c2_latest_month_snapshot (transactions : List BankTx)
    (hv : bankAllValid (bankFiltered transactions) = true)
    (h1 : bankAtMostOnePerGroup (bankFiltered transactions) = true) :
    (calculateBankHoldings transactions).savings = bankMonthSum "savings" transactions ∧
      (calculateBankHoldings transactions).demat = bankMonthSum "demat" transactions := by
  have hvalid : ∀ t ∈ bankFiltered transactions,
      ∃ time ym, t.txn_date = BankDate.valid time ym ∧ 0 ≤ ym := by
    intro t ht
    have := List.all_eq_true.mp hv t ht
    cases hd : t.txn_date with
    | missing => rw [hd] at this; cases this
    | invalid => rw [hd] at this; cases this
    | valid time ym =>
      rw [hd] at this
      exact ⟨time, ym, rfl, of_decide_eq_true this⟩
  cases hM : bankLatestMonth (bankFiltered transactions) with
  | none =>
    have hz : calculateBankHoldings transactions = ⟨0, 0, 0⟩ := by
      unfold calculateBankHoldings
      split
      · rfl
      · dsimp only
        split
        · rfl
        · rw [hM]
    rw [hz]
    unfold bankMonthSum
    rw [hM]
    exact ⟨rfl, rfl⟩
  | some M =>
    have hfe : (bankFiltered transactions).isEmpty = false := by
      cases hfil : (bankFiltered transactions).isEmpty
      · rfl
      · rw [List.isEmpty_iff.mp hfil] at hM
        cases hM
    have hne : transactions.isEmpty = false := by
      cases hn : transactions.isEmpty
      · rfl
      · rw [List.isEmpty_iff.mp hn] at hM
        simp [bankFiltered, bankLatestMonth] at hM
    have hM0 : ¬M < 0 := by
      rcases bankLatestMonth_attained (bankFiltered transactions) none M hM with h | h
      · cases h
      · rcases h with ⟨t, ht, time, hval⟩
        rcases hvalid t ht with ⟨time2, ym2, hval2, hym⟩
        rw [hval] at hval2
        cases hval2
        exact not_lt.mpr hym
    have honep : ∀ g ∈ groupByKey bankKey (bankFiltered transactions),
        (g.2.filter (bankInMonth M)).length ≤ 1 := by
      intro g hg
      rw [bankAtMostOnePerGroup, hM] at h1
      exact of_decide_eq_true (List.all_eq_true.mp h1 g hg)
    have hgroups : ∀ (ty : String),
        ((groupByKey bankKey (bankFiltered transactions)).map (bankPick M ty)).sum
          = ((bankFiltered transactions).map (bankTermF M ty)).sum := by
      intro ty
      rw [List.map_congr_left (fun g hg => bank_group_pick M ty g
        (fun t ht => by
          rcases hvalid t (mem_of_mem_groupByKey hg ht) with ⟨time, ym, hval, _⟩
          exact ⟨time, ym, hval⟩)
        (honep g hg))]
      exact groupByKey_groupSum bankKey (bankTermF M ty) (bankFiltered transactions)
    rw [calculateBankHoldings_some transactions M hM hM0 hne hfe, bank_sums_eq]
    unfold bankMonthSum
    rw [hM]
    constructor
    · dsimp only
      rw [zero_add, hgroups "savings"]
    · dsimp only
      rw [zero_add, hgroups "demat"]

/-- Witness for `c2_latest_month_snapshot`: one account over three months. -/
theorem c2_latest_month_snapshot_witness :
    (calculateBankHoldings [bankTxOf 1 202401 100, bankTxOf 2 202402 70, bankTxOf 3 202403 40]).savings
        = bankMonthSum "savings" [bankTxOf 1 202401 100, bankTxOf 2 202402 70, bankTxOf 3 202403 40] ∧
      (calculateBankHoldings [bankTxOf 1 202401 100, bankTxOf 2 202402 70, bankTxOf 3 202403 40]).demat
        = bankMonthSum "demat" [bankTxOf 1 202401 100, bankTxOf 2 202402 70, bankTxOf 3 202403 40] :=
  c2_latest_month_snapshot [bankTxOf 1 202401 100, bankTxOf 2 202402 70, bankTxOf 3 202403 40]
    (by with_unfolding_all decide) (by with_unfolding_all decide)

end Portfolio
